import Mathlib

/-!
Shallow embedding of the force-directed layout engine `SpringBox`
(src/spring/force.py) and verification of its specification.

Modelling conventions:
* Python floats are modelled as exact rationals (`ℚ`).
* Each node object is an `Obj` record carrying the fields the engine
  attaches to it (`pos`, `force`, `acc`, `vel`, `mass`, `charge`, `name`).
* Python statements that can raise (`ZeroDivisionError` in `A / N` and in
  `x / o.mass`, `ValueError` in `S ** 0.5` for negative `S`, `IndexError`
  in `self.objects[0]` on an empty list) are modelled with
  `Except String`; the error string names the Python exception.
* `R = S ** 0.5` is irrational in general, so `init_positions` takes the
  square root `R` as an explicit parameter; theorems that depend on its
  value carry the hypothesis `R * R = S` (and `0 ≤ R`).
* The mutating nested pair loops `for i: for j in range(i+1, ...)` are
  embedded structurally: the head object interacts with every later
  object (accumulating into both), then the pass recurses on the updated
  tail.  This performs exactly the same force updates in exactly the same
  order as the Python loops.
-/

namespace Spring

/-- Per-node state: the fields `SpringBox.init_positions` attaches to each
caller-supplied object (src/spring/force.py lines 37-43). -/
structure Obj where
  name : String
  pos : ℚ × ℚ
  force : ℚ × ℚ
  acc : ℚ × ℚ
  vel : ℚ × ℚ
  mass : ℚ
  charge : ℚ
  deriving DecidableEq, Repr

/-- `Kc = 8.9875*10**9` (src/spring/force.py line 10). -/
def Kc : ℚ := 8987500000

/-- The placement loop of `init_positions` (lines 36-52): each object is
placed at `(curr_x + R, curr_y)` with zeroed force/acc/vel and the uniform
mass and charge, then `curr_x += R`, wrapping to a new row
(`curr_x = 0; curr_y += 2R`) when `curr_x + R > width`. -/
def initLoop (R width mass charge : ℚ) : List String → ℚ → ℚ → List Obj
  | [], _, _ => []
  | n :: ns, cx, cy =>
    let o : Obj := ⟨n, (cx + R, cy), (0, 0), (0, 0), (0, 0), mass, charge⟩
    if cx + R + R > width then
      o :: initLoop R width mass charge ns 0 (cy + 2 * R)
    else
      o :: initLoop R width mass charge ns (cx + R) cy

/-- `SpringBox.init_positions` (lines 25-52), which is everything the
constructor `SpringBox.__init__` executes beyond storing its parameters.
`A = width*height`, `N = len(objects)`, `S = A / N`, `R = S ** 0.5`.
In Python 2, `A / N` raises `ZeroDivisionError` when the object list is
empty, and `S ** 0.5` raises `ValueError` when `S < 0`; both are modelled
as `Except.error`.  The square root value `R` (with `R * R = S`, `0 ≤ R`)
is supplied by the caller since `ℚ` has no square root. -/
def init_positions (R width height mass charge : ℚ) (names : List String) :
    Except String (List Obj) :=
  if names.length = 0 then
    Except.error "ZeroDivisionError"
  else
    let A := width * height
    let S := A / (names.length : ℚ)
    if S < 0 then
      Except.error "ValueError"
    else
      Except.ok (initLoop R width mass charge names 0 R)

/-- `SpringBox.clear_forces` (lines 57-62): reset each object's force
vector to `[0.0, 0.0]`; no other field is touched. -/
def clear_forces (os : List Obj) : List Obj :=
  os.map fun o => { o with force := (0, 0) }

/-- Body of the repulsion pair loop (lines 71-87) for a pair `(v, u)` with
`v` earlier in the list: on each axis, if the coordinate difference
`d = v - u` is nonzero, add `sign * Kc * v.charge * u.charge / d²` to
`v`'s force and the negation to `u`'s force, where `sign = d / |d|`. -/
def repPair (v u : Obj) : Obj × Obj :=
  let dx := v.pos.1 - u.pos.1
  let fx : ℚ × ℚ :=
    if dx ≠ 0 then
      let sign := dx / |dx|
      (v.force.1 + sign * Kc * v.charge * u.charge / dx ^ 2,
       u.force.1 + (-1) * sign * Kc * v.charge * u.charge / dx ^ 2)
    else (v.force.1, u.force.1)
  let dy := v.pos.2 - u.pos.2
  let fy : ℚ × ℚ :=
    if dy ≠ 0 then
      let sign := dy / |dy|
      (v.force.2 + sign * Kc * v.charge * u.charge / dy ^ 2,
       u.force.2 + (-1) * sign * Kc * v.charge * u.charge / dy ^ 2)
    else (v.force.2, u.force.2)
  ({ v with force := (fx.1, fy.1) }, { u with force := (fx.2, fy.2) })

/-- Inner loop `for j in xrange(i+1, ...)` of `compute_repulsive_force`:
the row object `v` interacts with each later object in turn, accumulating
into `v` and into each of them. -/
def repRow (v : Obj) : List Obj → Obj × List Obj
  | [] => (v, [])
  | u :: us =>
    let p := repPair v u
    let r := repRow p.1 us
    (r.1, p.2 :: r.2)

/-- `SpringBox.compute_repulsive_force` (lines 65-87): every ordered pair
`i < j` interacts once, in loop order. -/
def compute_repulsive_force : List Obj → List Obj
  | [] => []
  | v :: rest =>
    let r := repRow v rest
    r.1 :: compute_repulsive_force r.2
termination_by os => os.length
decreasing_by
  have h : ∀ (v : Obj) (us : List Obj), (repRow v us).2.length = us.length := by
    intro v us
    induction us generalizing v with
    | nil => rfl
    | cons u us ih => simp [repRow, ih]
  simp [h]

/-- Body of the attraction pair loop (lines 96-114) for a pair `(v, u)`
with `v` earlier: query `kfn v u`; on `None` contribute nothing, otherwise
apply Hooke's law per axis (`v += -d*k`, `u += d*k`) skipping an axis
whose coordinate difference is zero. -/
def attPair (kfn : Obj → Obj → Option ℚ) (v u : Obj) : Obj × Obj :=
  match kfn v u with
  | none => (v, u)
  | some k =>
    let dx := v.pos.1 - u.pos.1
    let fx : ℚ × ℚ :=
      if dx ≠ 0 then (v.force.1 + (-1) * dx * k, u.force.1 + dx * k)
      else (v.force.1, u.force.1)
    let dy := v.pos.2 - u.pos.2
    let fy : ℚ × ℚ :=
      if dy ≠ 0 then (v.force.2 + (-1) * dy * k, u.force.2 + dy * k)
      else (v.force.2, u.force.2)
    ({ v with force := (fx.1, fy.1) }, { u with force := (fx.2, fy.2) })

/-- Inner loop of `compute_attractive_force`. -/
def attRow (kfn : Obj → Obj → Option ℚ) (v : Obj) : List Obj → Obj × List Obj
  | [] => (v, [])
  | u :: us =>
    let p := attPair kfn v u
    let r := attRow kfn p.1 us
    (r.1, p.2 :: r.2)

/-- `SpringBox.compute_attractive_force` (lines 89-114). -/
def compute_attractive_force (kfn : Obj → Obj → Option ℚ) : List Obj → List Obj
  | [] => []
  | v :: rest =>
    let r := attRow kfn v rest
    r.1 :: compute_attractive_force kfn r.2
termination_by os => os.length
decreasing_by
  have h : ∀ (v : Obj) (us : List Obj), (attRow kfn v us).2.length = us.length := by
    intro v us
    induction us generalizing v with
    | nil => rfl
    | cons u us ih => simp [attRow, ih]
  simp [h]

/-- The `(name, name)` argument pairs passed to `kfn` by one inner row of
`compute_attractive_force`, in call order.  (`kfn` receives the object
references themselves; only their `force` fields differ from the state at
the start of the pass, and `name` identifies the node.) -/
def attRowQueries (kfn : Obj → Obj → Option ℚ) (v : Obj) :
    List Obj → List (String × String)
  | [] => []
  | u :: us =>
    let p := attPair kfn v u
    (v.name, u.name) :: attRowQueries kfn p.1 us

/-- All `(name, name)` argument pairs passed to `kfn` during one
`compute_attractive_force` pass, in call order. -/
def attQueries (kfn : Obj → Obj → Option ℚ) : List Obj → List (String × String)
  | [] => []
  | v :: rest =>
    let r := attRow kfn v rest
    attRowQueries kfn v rest ++ attQueries kfn r.2
termination_by os => os.length
decreasing_by
  have h : ∀ (v : Obj) (us : List Obj), (attRow kfn v us).2.length = us.length := by
    intro v us
    induction us generalizing v with
    | nil => rfl
    | cons u us ih => simp [attRow, ih]
  simp [h]

/-- All `(earlier, later)` pairs of a list, in the order the Python nested
loops `for i: for j in xrange(i+1, ...)` enumerate them. -/
def allPairs {α : Type} : List α → List (α × α)
  | [] => []
  | x :: xs => (xs.map fun y => (x, y)) ++ allPairs xs

/-- A weight oracle that depends only on the node names, as the
repository's actual oracle does (`SpringBox.kfn` looks up `u.name`,
`v.name` in a dictionary). -/
def nameOracle (K : String → String → Option ℚ) : Obj → Obj → Option ℚ :=
  fun a b => K a.name b.name

/-- Integration of a single object in `SpringBox.move` (lines 116-130):
`acc = force / mass`, then `pos` is ASSIGNED (not incremented)
`vel*t + (acc/2)*t²`, then `vel += acc*t`.  The `pos` update uses the old
`vel` and the new `acc`, exactly as the Python `map` calls do. -/
def moveObj (time_step : ℚ) (o : Obj) : Obj :=
  let acc : ℚ × ℚ := (o.force.1 / o.mass, o.force.2 / o.mass)
  let pos : ℚ × ℚ :=
    (o.vel.1 * time_step + acc.1 / 2 * time_step ^ 2,
     o.vel.2 * time_step + acc.2 / 2 * time_step ^ 2)
  let vel : ℚ × ℚ := (o.vel.1 + acc.1 * time_step, o.vel.2 + acc.2 * time_step)
  { o with acc := acc, pos := pos, vel := vel }

/-- `SpringBox.move` (lines 116-130).  In Python, `x / o.mass` raises
`ZeroDivisionError` when `o.mass = 0` (floats included); the step is
modelled as failing whenever some object has zero mass. -/
def move (time_step : ℚ) (os : List Obj) : Except String (List Obj) :=
  if ∃ o ∈ os, o.mass = 0 then Except.error "ZeroDivisionError"
  else Except.ok (os.map (moveObj time_step))

/-- `SpringBox.scale_to_map` (lines 132-152): bounding box of all
positions (the min/max folds start from `objects[0]`, which raises
`IndexError` on an empty list), `lenx = maxx-minx+1`,
`scalex = width/lenx`, then each position is translated by the box
minimum and scaled.  (The Python also copies the result into
`o.xpos, o.ypos`; those aliases carry no extra state.) -/
def scale_to_map (width height : ℚ) (os : List Obj) : Except String (List Obj) :=
  match os with
  | [] => Except.error "IndexError"
  | o0 :: _ =>
    let minx := os.foldl (fun m o => if o.pos.1 < m then o.pos.1 else m) o0.pos.1
    let maxx := os.foldl (fun m o => if o.pos.1 > m then o.pos.1 else m) o0.pos.1
    let miny := os.foldl (fun m o => if o.pos.2 < m then o.pos.2 else m) o0.pos.2
    let maxy := os.foldl (fun m o => if o.pos.2 > m then o.pos.2 else m) o0.pos.2
    let lenx := maxx - minx + 1
    let leny := maxy - miny + 1
    let scalex := width / lenx
    let scaley := height / leny
    Except.ok (os.map fun o =>
      { o with pos := ((o.pos.1 - minx) * scalex, (o.pos.2 - miny) * scaley) })

/-- One iteration of the loop in `move_to_equillibrium` (lines 159-163):
`clear_forces; compute_repulsive_force; compute_attractive_force; move`. -/
def springStep (kfn : Obj → Obj → Option ℚ) (time_step : ℚ) (os : List Obj) :
    Except String (List Obj) :=
  move time_step
    (compute_attractive_force kfn (compute_repulsive_force (clear_forces os)))

/-- The iteration loop `for x in xrange(R)` of `move_to_equillibrium`. -/
def springIter (kfn : Obj → Obj → Option ℚ) (time_step : ℚ) :
    ℕ → List Obj → Except String (List Obj)
  | 0, os => Except.ok os
  | n + 1, os => (springStep kfn time_step os).bind (springIter kfn time_step n)

/-- `SpringBox.move_to_equillibrium` (lines 154-166): `R` simulation steps
followed by the final rescale. -/
def move_to_equillibrium (kfn : Obj → Obj → Option ℚ)
    (width height time_step : ℚ) (R : ℕ) (os : List Obj) :
    Except String (List Obj) :=
  (springIter kfn time_step R os).bind (scale_to_map width height)

/-- Full engine run: construction (`__init__`, i.e. `init_positions`)
followed by `move_to_equillibrium`.  `sqrtS` is the value of `S ** 0.5`
supplied externally (see `init_positions`). -/
def runEngine (kfn : Obj → Obj → Option ℚ)
    (sqrtS width height mass charge time_step : ℚ) (names : List String)
    (R : ℕ) : Except String (List Obj) :=
  (init_positions sqrtS width height mass charge names).bind
    (move_to_equillibrium kfn width height time_step R)

/-! Concrete inputs used by counterexamples and witnesses. -/

/-- A node at rest at `(5, 5)` with zero force and velocity, unit mass. -/
def oC1 : Obj := ⟨"A", (5, 5), (0, 0), (0, 0), (0, 0), 1, 1⟩

/-- Two connected nodes with zero charge (so repulsion contributes nothing)
and unit mass. -/
def osC2 : List Obj :=
  [⟨"A", (0, 0), (0, 0), (0, 0), (0, 0), 1, 0⟩,
   ⟨"B", (1, 0), (0, 0), (0, 0), (0, 0), 1, 0⟩]

/-- Oracle connecting every pair with spring constant 1. -/
def kfnC2 : Obj → Obj → Option ℚ := fun _ _ => some 1

/-- A pair of nodes separated on both axes, `v` carrying a nonzero
pre-existing force. -/
def vC7 : Obj := ⟨"A", (0, 0), (2, 3), (0, 0), (0, 0), 1, 1⟩

def uC7 : Obj := ⟨"B", (1, 2), (0, 0), (0, 0), (0, 0), 1, 1⟩

def kfnC7 : Obj → Obj → Option ℚ := fun _ _ => some 1

/-- A single node at `(3, 7)`, and its image under `scale_to_map 10 10`. -/
def oC5 : Obj := ⟨"A", (3, 7), (0, 0), (0, 0), (0, 0), 1, 1⟩

def oC5s : Obj := ⟨"A", (0, 0), (0, 0), (0, 0), (0, 0), 1, 1⟩

/-- The grid produced by `init_positions 2 2 4 1 1 ["A", "B"]`. -/
def osC9 : List Obj :=
  [⟨"A", (2, 2), (0, 0), (0, 0), (0, 0), 1, 1⟩,
   ⟨"B", (2, 6), (0, 0), (0, 0), (0, 0), 1, 1⟩]

/-- Two pointwise-equal oracles written differently. -/
def kfnC8a : Obj → Obj → Option ℚ := fun _ _ => some 1

def kfnC8b : Obj → Obj → Option ℚ :=
  fun v _ => if v.name = v.name then some 1 else none

/-- A symmetric name-indexed oracle, and an asymmetric one that differs
from it only at the reversed argument order `("B", "A")` — which the
engine never queries. -/
def K10a : String → String → Option ℚ := fun _ _ => some 1

def K10b : String → String → Option ℚ :=
  fun a b => if a = "B" ∧ b = "A" then none else some 1

end Spring

namespace Spring

/-- C1: the claim says the integration step increments the position by
`velocity * time_step + 0.5 * acceleration * time_step²`.  The code
(src/spring/force.py lines 126-128) instead ASSIGNS
`pos = vel*t + (acc/2)*t²`, discarding the old position: a node at rest
at `(5, 5)` with zero net force is teleported to `(0, 0)` by one `move`
call, while the claimed update would leave it at `(5, 5)`.  This
contradicts the method's own docstring ("moves according ot acceleration
... S = Vo*t + 1/2*a*t^2"), where the kinematic displacement `S` should
be added to the position. -/
theorem C1_move_discards_position :
    (move 1 [oC1]).map (List.map Obj.pos) = Except.ok [((0 : ℚ), (0 : ℚ))] ∧
      oC1.pos ≠ ((0 : ℚ), (0 : ℚ)) := by
  constructor
  · norm_num [move, moveObj, oC1, Except.map]
  · norm_num [oC1]

/-- C2 counterexample: the claim says force, acceleration and velocity are
all reset to zero at the start of every integration step.  Running one
full step on `osC2` (time_step 1) and then the next step's
`clear_forces` leaves node A's velocity at `(1, 0) ≠ (0, 0)`: the
velocity accumulator is never reset. -/
theorem C2_velocity_survives_clear :
    (springStep kfnC2 1 osC2).map (fun os => (clear_forces os).map Obj.vel)
        = Except.ok [((1 : ℚ), (0 : ℚ)), ((-1 : ℚ), (0 : ℚ))] ∧
      ((1 : ℚ), (0 : ℚ)) ≠ ((0 : ℚ), (0 : ℚ)) := by
  constructor
  · norm_num [springStep, clear_forces, compute_repulsive_force, repRow, repPair,
      compute_attractive_force, attRow, attPair, kfnC2, osC2, move, moveObj,
      Kc, Except.map]
  · norm_num

/-- C2 (amended): at the start of every integration step only the FORCE
accumulator is reset to zero (`clear_forces`); position, velocity and
acceleration are left untouched by the reset (acceleration is later
overwritten inside `move`, and velocity persists across steps). -/
theorem C2_only_force_is_reset (os : List Obj) :
    (clear_forces os).map Obj.force = os.map (fun _ => ((0 : ℚ), (0 : ℚ)))
    ∧ (clear_forces os).map Obj.vel = os.map Obj.vel
    ∧ (clear_forces os).map Obj.acc = os.map Obj.acc
    ∧ (clear_forces os).map Obj.pos = os.map Obj.pos := by
  refine ⟨?_, ?_, ?_, ?_⟩ <;> simp only [clear_forces, List.map_map] <;> rfl

/-! Preservation lemmas: the pair interactions only touch `force`; the
pass loops preserve every other per-object field pointwise. -/

theorem repPair_mass (v u : Obj) :
    (repPair v u).1.mass = v.mass ∧ (repPair v u).2.mass = u.mass := by
  simp [repPair]

theorem attPair_mass (kfn : Obj → Obj → Option ℚ) (v u : Obj) :
    (attPair kfn v u).1.mass = v.mass ∧ (attPair kfn v u).2.mass = u.mass := by
  cases hk : kfn v u <;> simp [attPair, hk]

theorem repRow_snd_length (v : Obj) (us : List Obj) :
    (repRow v us).2.length = us.length := by
  induction us generalizing v with
  | nil => rfl
  | cons u us ih => simp [repRow, ih]

theorem attRow_snd_length (kfn : Obj → Obj → Option ℚ) (v : Obj) (us : List Obj) :
    (attRow kfn v us).2.length = us.length := by
  induction us generalizing v with
  | nil => rfl
  | cons u us ih => simp [attRow, ih]

theorem repRow_mass (v : Obj) (us : List Obj) :
    (repRow v us).1.mass = v.mass ∧
      (repRow v us).2.map Obj.mass = us.map Obj.mass := by
  induction us generalizing v with
  | nil => simp [repRow]
  | cons u us ih =>
    simp only [repRow, List.map_cons]
    exact ⟨((ih (repPair v u).1).1).trans (repPair_mass v u).1,
      by rw [(ih (repPair v u).1).2, (repPair_mass v u).2]⟩

theorem attRow_mass (kfn : Obj → Obj → Option ℚ) (v : Obj) (us : List Obj) :
    (attRow kfn v us).1.mass = v.mass ∧
      (attRow kfn v us).2.map Obj.mass = us.map Obj.mass := by
  induction us generalizing v with
  | nil => simp [attRow]
  | cons u us ih =>
    simp only [attRow, List.map_cons]
    exact ⟨((ih (attPair kfn v u).1).1).trans (attPair_mass kfn v u).1,
      by rw [(ih (attPair kfn v u).1).2, (attPair_mass kfn v u).2]⟩

theorem compute_repulsive_force_mass :
    ∀ os : List Obj,
      (compute_repulsive_force os).map Obj.mass = os.map Obj.mass
  | [] => by simp [compute_repulsive_force]
  | v :: rest => by
    simp only [compute_repulsive_force, List.map_cons]
    rw [compute_repulsive_force_mass (repRow v rest).2,
      (repRow_mass v rest).1, (repRow_mass v rest).2]
termination_by os => os.length
decreasing_by simp [repRow_snd_length]

theorem compute_attractive_force_mass (kfn : Obj → Obj → Option ℚ) :
    ∀ os : List Obj,
      (compute_attractive_force kfn os).map Obj.mass = os.map Obj.mass
  | [] => by simp [compute_attractive_force]
  | v :: rest => by
    simp only [compute_attractive_force, List.map_cons]
    rw [compute_attractive_force_mass kfn (attRow kfn v rest).2,
      (attRow_mass kfn v rest).1, (attRow_mass kfn v rest).2]
termination_by os => os.length
decreasing_by simp [attRow_snd_length]

theorem clear_forces_mass (os : List Obj) :
    (clear_forces os).map Obj.mass = os.map Obj.mass := by
  simp only [clear_forces, List.map_map]
  rfl

theorem initLoop_mass (R w m c : ℚ) :
    ∀ (ns : List String) (cx cy : ℚ),
      (initLoop R w m c ns cx cy).map Obj.mass = ns.map fun _ => m
  | [], _, _ => by simp [initLoop]
  | n :: ns, cx, cy => by
    simp only [initLoop]
    split_ifs <;> simp [initLoop_mass R w m c ns]

/-- C3 counterexample: the claim says width ≤ 0 fails fast at
construction.  Constructing with `width = 0`, `height = 5` and one node
succeeds: the square area `S = 0` raises nothing (`0 ** 0.5 = 0`), and
the node is laid out at `(0, 0)`. -/
theorem C3_zero_width_accepted :
    init_positions 0 0 5 1 1 ["A"] =
      Except.ok [⟨"A", (0, 0), (0, 0), (0, 0), (0, 0), 1, 1⟩] := by
  norm_num [init_positions, initLoop]

/-- C3 (amended): construction fails fast exactly when the node sequence
is empty (`ZeroDivisionError` computing `S = A/N`) or the canvas area
`width * height` is negative (`ValueError` computing `S ** 0.5`);
`width = 0`, `height = 0`, or both dimensions negative (positive area)
are accepted and layout proceeds. -/
theorem C3_construction_error_iff (R w h m c : ℚ) (names : List String) :
    (∃ e, init_positions R w h m c names = Except.error e) ↔
      names = [] ∨ w * h < 0 := by
  cases names with
  | nil => simp [init_positions]
  | cons n ns =>
    have hpos : (0 : ℚ) < (((n :: ns).length : ℕ) : ℚ) := by
      have : (0 : ℕ) < (n :: ns).length := by simp
      exact_mod_cast this
    have hiff : w * h / (((n :: ns).length : ℕ) : ℚ) < 0 ↔ w * h < 0 := by
      constructor
      · intro hS
        rcases div_neg_iff.mp hS with ⟨_, hb⟩ | ⟨ha, _⟩
        · exact absurd hb (not_lt.mpr hpos.le)
        · exact ha
      · intro hwh
        exact div_neg_of_neg_of_pos hwh hpos
    simp only [init_positions]
    by_cases hS : w * h / (((n :: ns).length : ℕ) : ℚ) < 0
    · rw [if_neg (by simp), if_pos hS]
      simp [hiff.mp hS]
    · rw [if_neg (by simp), if_neg hS]
      simp [hiff.not.mp hS]

/-- C4 counterexample: the claim says mass = 0 is rejected at
construction time.  Constructing with mass 0 (canvas 2 × 2, one node)
succeeds: `__init__` performs no validation of mass. -/
theorem C4_zero_mass_accepted :
    init_positions 2 2 2 0 1 ["A"] =
      Except.ok [⟨"A", (2, 2), (0, 0), (0, 0), (0, 0), 0, 1⟩] := by
  norm_num [init_positions, initLoop]

/-- C4 (amended): construction does NOT validate mass.  With mass = 0
(any nonempty node list, any canvas of nonnegative area) the engine is
constructed successfully, and the division `force / mass` in the first
integration step is reached with a zero divisor: the very first `move`
raises `ZeroDivisionError` mid-loop. -/
theorem C4_zero_mass_reaches_division (kfn : Obj → Obj → Option ℚ)
    (R w h c t : ℚ) (names : List String)
    (hne : names ≠ []) (hwh : ¬ w * h < 0) :
    ∃ os, init_positions R w h 0 c names = Except.ok os ∧
      springStep kfn t os = Except.error "ZeroDivisionError" := by
  have hlen : names.length ≠ 0 := fun h => hne (List.length_eq_zero.mp h)
  have hpos : (0 : ℚ) < ((names.length : ℕ) : ℚ) := by
    exact_mod_cast Nat.pos_of_ne_zero hlen
  refine ⟨initLoop R w 0 c names 0 R, ?_, ?_⟩
  · simp only [init_positions]
    rw [if_neg hlen, if_neg]
    intro hS
    rcases div_neg_iff.mp hS with ⟨_, hb⟩ | ⟨ha, _⟩
    · exact absurd hb (not_lt.mpr hpos.le)
    · exact hwh ha
  · simp only [springStep, move]
    rw [if_pos]
    have hmass :
        (compute_attractive_force kfn
            (compute_repulsive_force
              (clear_forces (initLoop R w 0 c names 0 R)))).map Obj.mass
          = names.map fun _ => (0 : ℚ) := by
      rw [compute_attractive_force_mass, compute_repulsive_force_mass,
        clear_forces_mass, initLoop_mass]
    set os' := compute_attractive_force kfn
      (compute_repulsive_force (clear_forces (initLoop R w 0 c names 0 R)))
      with hos'
    have hne' : os' ≠ [] := by
      intro h
      rw [h] at hmass
      exact hne (List.map_eq_nil_iff.mp hmass.symm)
    refine ⟨os'.head hne', List.head_mem hne', ?_⟩
    have : (os'.head hne').mass ∈ os'.map Obj.mass :=
      List.mem_map_of_mem Obj.mass (List.head_mem hne')
    rw [hmass] at this
    rcases List.mem_map.mp this with ⟨_, _, hval⟩
    exact hval.symm

/-- C4 witness: the amended claim at a concrete input (mass 0, one node
named "A", canvas 2 × 2, `R = sqrt(4) = 2`). -/
theorem C4_zero_mass_witness :
    ∃ os, init_positions 2 2 2 0 1 ["A"] = Except.ok os ∧
      springStep (fun _ _ => none) 1 os = Except.error "ZeroDivisionError" :=
  C4_zero_mass_reaches_division (fun _ _ => none) 2 2 2 1 1 ["A"]
    (by simp) (by norm_num)

/-- C6: for a pair of distinct nodes `(v, u)` with `v` earlier in the
node list, the repulsion pass adds
`sign(d) * Kc * v.charge * u.charge / d²` to `v`'s force on each axis
(where `d` is the coordinate difference `v - u` on that axis and
`sign(d) = d / |d|`), subtracts the same quantity from `u`'s force, and
contributes exactly zero on an axis whose coordinate difference is zero.
`Kc = 8.9875e9`. -/
theorem C6_repulsion_contribution (v u : Obj) :
    ((repPair v u).1.force.1 = v.force.1 +
        (if v.pos.1 - u.pos.1 = 0 then 0 else
          ((v.pos.1 - u.pos.1) / |v.pos.1 - u.pos.1|) * Kc * v.charge * u.charge /
            (v.pos.1 - u.pos.1) ^ 2))
    ∧ ((repPair v u).2.force.1 = u.force.1 -
        (if v.pos.1 - u.pos.1 = 0 then 0 else
          ((v.pos.1 - u.pos.1) / |v.pos.1 - u.pos.1|) * Kc * v.charge * u.charge /
            (v.pos.1 - u.pos.1) ^ 2))
    ∧ ((repPair v u).1.force.2 = v.force.2 +
        (if v.pos.2 - u.pos.2 = 0 then 0 else
          ((v.pos.2 - u.pos.2) / |v.pos.2 - u.pos.2|) * Kc * v.charge * u.charge /
            (v.pos.2 - u.pos.2) ^ 2))
    ∧ ((repPair v u).2.force.2 = u.force.2 -
        (if v.pos.2 - u.pos.2 = 0 then 0 else
          ((v.pos.2 - u.pos.2) / |v.pos.2 - u.pos.2|) * Kc * v.charge * u.charge /
            (v.pos.2 - u.pos.2) ^ 2)) := by
  refine ⟨?_, ?_, ?_, ?_⟩ <;> simp only [repPair] <;> split_ifs <;>
    first | ring1 | simp_all

/-- C7: pairwise force symmetry.  For any pair `(v, u)`, the repulsive
contribution applied to `v` is the exact negation of the contribution
applied to `u`, on each axis independently; the same holds for the
attractive (spring) contribution whenever the oracle returns a constant
`k` for the pair. -/
theorem C7_pairwise_symmetry (kfn : Obj → Obj → Option ℚ) (v u : Obj) (k : ℚ)
    (hk : kfn v u = some k) :
    ((repPair v u).1.force.1 - v.force.1 = -((repPair v u).2.force.1 - u.force.1))
    ∧ ((repPair v u).1.force.2 - v.force.2 = -((repPair v u).2.force.2 - u.force.2))
    ∧ ((attPair kfn v u).1.force.1 - v.force.1
        = -((attPair kfn v u).2.force.1 - u.force.1))
    ∧ ((attPair kfn v u).1.force.2 - v.force.2
        = -((attPair kfn v u).2.force.2 - u.force.2)) := by
  refine ⟨?_, ?_, ?_, ?_⟩ <;> simp only [repPair, attPair, hk] <;>
    split_ifs <;> ring

/-- C7 witness: the symmetry at a concrete pair of nodes with distinct
coordinates on both axes and an oracle returning `k = 1`. -/
theorem C7_pairwise_symmetry_witness :
    ((repPair vC7 uC7).1.force.1 - vC7.force.1
        = -((repPair vC7 uC7).2.force.1 - uC7.force.1))
    ∧ ((repPair vC7 uC7).1.force.2 - vC7.force.2
        = -((repPair vC7 uC7).2.force.2 - uC7.force.2))
    ∧ ((attPair kfnC7 vC7 uC7).1.force.1 - vC7.force.1
        = -((attPair kfnC7 vC7 uC7).2.force.1 - uC7.force.1))
    ∧ ((attPair kfnC7 vC7 uC7).1.force.2 - vC7.force.2
        = -((attPair kfnC7 vC7 uC7).2.force.2 - uC7.force.2)) :=
  C7_pairwise_symmetry kfnC7 vC7 uC7 1 rfl

/-! Bounding-box fold lemmas for `scale_to_map`. -/

theorem foldl_min_le_init (g : Obj → ℚ) (os : List Obj) (a : ℚ) :
    os.foldl (fun m x => if g x < m then g x else m) a ≤ a := by
  induction os generalizing a with
  | nil => simp
  | cons u us ih =>
    simp only [List.foldl_cons]
    refine le_trans (ih _) ?_
    split_ifs with hlt
    · exact hlt.le
    · exact le_refl a

theorem foldl_min_le_mem (g : Obj → ℚ) (os : List Obj) (a : ℚ) :
    ∀ o ∈ os, os.foldl (fun m x => if g x < m then g x else m) a ≤ g o := by
  induction os generalizing a with
  | nil => simp
  | cons u us ih =>
    intro o ho
    rcases List.mem_cons.mp ho with rfl | ho
    · simp only [List.foldl_cons]
      refine le_trans (foldl_min_le_init g us _) ?_
      split_ifs with hlt
      · exact le_refl _
      · exact not_lt.mp hlt
    · exact ih _ o ho

theorem foldl_max_init_le (g : Obj → ℚ) (os : List Obj) (a : ℚ) :
    a ≤ os.foldl (fun m x => if g x > m then g x else m) a := by
  induction os generalizing a with
  | nil => simp
  | cons u us ih =>
    simp only [List.foldl_cons]
    refine le_trans ?_ (ih _)
    split_ifs with hlt
    · exact hlt.le
    · exact le_refl a

theorem foldl_max_mem_le (g : Obj → ℚ) (os : List Obj) (a : ℚ) :
    ∀ o ∈ os, g o ≤ os.foldl (fun m x => if g x > m then g x else m) a := by
  induction os generalizing a with
  | nil => simp
  | cons u us ih =>
    intro o ho
    rcases List.mem_cons.mp ho with rfl | ho
    · simp only [List.foldl_cons]
      refine le_trans ?_ (foldl_max_init_le g us _)
      split_ifs with hlt
      · exact le_refl _
      · exact not_lt.mp hlt
    · exact ih _ o ho

/-- C5: canvas containment.  Whenever `scale_to_map` succeeds (nonempty
node list) with positive canvas dimensions, every output node's position
lies in the half-open box `[0, width) × [0, height)`: each coordinate is
translated by the bounding-box minimum and scaled by
`width / (box_width + 1)` resp. `height / (box_height + 1)`.
(Pre-scale coordinates are rationals here, hence always finite.) -/
theorem C5_canvas_containment (w h : ℚ) (os os2 : List Obj)
    (hw : 0 < w) (hh : 0 < h)
    (hok : scale_to_map w h os = Except.ok os2) :
    ∀ o ∈ os2, 0 ≤ o.pos.1 ∧ o.pos.1 < w ∧ 0 ≤ o.pos.2 ∧ o.pos.2 < h := by
  cases os with
  | nil => simp [scale_to_map] at hok
  | cons o0 rest =>
    simp only [scale_to_map, Except.ok.injEq] at hok
    subst hok
    intro o ho
    rcases List.mem_map.mp ho with ⟨p, hp, rfl⟩
    set minx := (o0 :: rest).foldl
      (fun m x => if x.pos.1 < m then x.pos.1 else m) o0.pos.1 with hminx
    set maxx := (o0 :: rest).foldl
      (fun m x => if x.pos.1 > m then x.pos.1 else m) o0.pos.1 with hmaxx
    set miny := (o0 :: rest).foldl
      (fun m x => if x.pos.2 < m then x.pos.2 else m) o0.pos.2 with hminy
    set maxy := (o0 :: rest).foldl
      (fun m x => if x.pos.2 > m then x.pos.2 else m) o0.pos.2 with hmaxy
    have hxlo : minx ≤ p.pos.1 :=
      foldl_min_le_mem (fun x => x.pos.1) (o0 :: rest) o0.pos.1 p hp
    have hxhi : p.pos.1 ≤ maxx :=
      foldl_max_mem_le (fun x => x.pos.1) (o0 :: rest) o0.pos.1 p hp
    have hylo : miny ≤ p.pos.2 :=
      foldl_min_le_mem (fun x => x.pos.2) (o0 :: rest) o0.pos.2 p hp
    have hyhi : p.pos.2 ≤ maxy :=
      foldl_max_mem_le (fun x => x.pos.2) (o0 :: rest) o0.pos.2 p hp
    have hlenx : (0 : ℚ) < maxx - minx + 1 := by linarith
    have hleny : (0 : ℚ) < maxy - miny + 1 := by linarith
    have hsx : (0 : ℚ) < w / (maxx - minx + 1) := div_pos hw hlenx
    have hsy : (0 : ℚ) < h / (maxy - miny + 1) := div_pos hh hleny
    have keyx : (maxx - minx) * (w / (maxx - minx + 1)) < w := by
      rw [← mul_div_assoc, div_lt_iff₀ hlenx]
      nlinarith
    have keyy : (maxy - miny) * (h / (maxy - miny + 1)) < h := by
      rw [← mul_div_assoc, div_lt_iff₀ hleny]
      nlinarith
    refine ⟨?_, ?_, ?_, ?_⟩
    · exact mul_nonneg (by linarith) hsx.le
    · calc (p.pos.1 - minx) * (w / (maxx - minx + 1))
          ≤ (maxx - minx) * (w / (maxx - minx + 1)) :=
            mul_le_mul_of_nonneg_right (by linarith) hsx.le
        _ < w := keyx
    · exact mul_nonneg (by linarith) hsy.le
    · calc (p.pos.2 - miny) * (h / (maxy - miny + 1))
          ≤ (maxy - miny) * (h / (maxy - miny + 1)) :=
            mul_le_mul_of_nonneg_right (by linarith) hsy.le
        _ < h := keyy

/-- C5 witness: a single node at `(3, 7)` on a 10 × 10 canvas is mapped
to `(0, 0)`, inside `[0, 10) × [0, 10)`. -/
theorem C5_canvas_containment_witness :
    0 ≤ oC5s.pos.1 ∧ oC5s.pos.1 < 10 ∧ 0 ≤ oC5s.pos.2 ∧ oC5s.pos.2 < 10 :=
  C5_canvas_containment 10 10 [oC5] [oC5s] (by norm_num) (by norm_num)
    (by norm_num [scale_to_map, oC5, oC5s]) oC5s (by simp)

/-! Grid-placement lemmas for `init_positions`. -/

/-- Every object produced by `initLoop` from cursor `(cx, cy)` lies
strictly below row `cy` (larger y) or in row `cy` at x-offset at least
`cx + R`. -/
theorem initLoop_lower (R w m c : ℚ) (hR : 0 < R) (ns : List String) :
    ∀ (cx cy : ℚ) (o : Obj), o ∈ initLoop R w m c ns cx cy →
      cy < o.pos.2 ∨ (o.pos.2 = cy ∧ cx + R ≤ o.pos.1) := by
  induction ns with
  | nil =>
    intro cx cy o ho
    simp [initLoop] at ho
  | cons n ns ih =>
    intro cx cy o ho
    simp only [initLoop] at ho
    split_ifs at ho with hwrap
    · rcases List.mem_cons.mp ho with rfl | ho
      · exact Or.inr ⟨rfl, le_refl _⟩
      · rcases ih 0 (cy + 2 * R) o ho with hgt | ⟨heq, _⟩
        · exact Or.inl (by linarith)
        · exact Or.inl (by rw [heq]; linarith)
    · rcases List.mem_cons.mp ho with rfl | ho
      · exact Or.inr ⟨rfl, le_refl _⟩
      · rcases ih (cx + R) cy o ho with hgt | ⟨heq, hge⟩
        · exact Or.inl hgt
        · exact Or.inr ⟨heq, by linarith⟩

/-- No two objects produced by `initLoop` share a position when `R > 0`:
within a row x strictly increases by `R`, and every later row has a
strictly larger y (`+2R` per wrap). -/
theorem initLoop_pairwise_ne (R w m c : ℚ) (hR : 0 < R) (ns : List String) :
    ∀ cx cy : ℚ,
      (initLoop R w m c ns cx cy).Pairwise (fun a b => a.pos ≠ b.pos) := by
  induction ns with
  | nil =>
    intro cx cy
    simp [initLoop]
  | cons n ns ih =>
    intro cx cy
    simp only [initLoop]
    split_ifs with hwrap
    · refine List.Pairwise.cons ?_ (ih 0 (cy + 2 * R))
      intro b hb hcontra
      rw [Prod.ext_iff] at hcontra
      rcases initLoop_lower R w m c hR ns 0 (cy + 2 * R) b hb with hgt | ⟨heq, _⟩
      · have h2 : cy = b.pos.2 := hcontra.2
        linarith
      · have h2 : cy = b.pos.2 := hcontra.2
        rw [heq] at h2
        linarith
    · refine List.Pairwise.cons ?_ (ih (cx + R) cy)
      intro b hb hcontra
      rw [Prod.ext_iff] at hcontra
      rcases initLoop_lower R w m c hR ns (cx + R) cy b hb with hgt | ⟨heq, hge⟩
      · have h2 : cy = b.pos.2 := hcontra.2
        linarith
      · have h1 : cx + R = b.pos.1 := hcontra.1
        linarith

/-- C9: no initial overlap.  After `init_positions` with `N > 1` nodes,
positive canvas area, and `R = sqrt(width*height/N)` (given as a value
with `R*R = width*height/N`, `0 ≤ R`, hence `R > 0`), no two nodes share
the same `(x, y)` position pair: nodes in the same row differ in x by at
least `R` and nodes in different rows differ in y. -/
theorem C9_no_initial_overlap (Rv w h m c : ℚ) (names : List String)
    (hN : 1 < names.length) (hA : 0 < w * h)
    (hRR : Rv * Rv = w * h / ((names.length : ℕ) : ℚ)) (hR0 : 0 ≤ Rv) :
    ∀ os, init_positions Rv w h m c names = Except.ok os →
      ∀ (i j : ℕ) (hi : i < os.length) (hj : j < os.length), i ≠ j →
        (os.get ⟨i, hi⟩).pos ≠ (os.get ⟨j, hj⟩).pos := by
  intro os hok i j hi hj hij
  have hlenpos : (0 : ℚ) < ((names.length : ℕ) : ℚ) := by
    exact_mod_cast Nat.lt_of_lt_of_le Nat.zero_lt_one hN.le
  have hSpos : 0 < w * h / ((names.length : ℕ) : ℚ) := div_pos hA hlenpos
  have hRpos : 0 < Rv := by
    rcases hR0.lt_or_eq with hlt | heq
    · exact hlt
    · exfalso
      rw [← heq] at hRR
      rw [← hRR] at hSpos
      simp at hSpos
  have hos : initLoop Rv w m c names 0 Rv = os := by
    simp only [init_positions] at hok
    rw [if_neg (by omega), if_neg (not_lt.mpr hSpos.le)] at hok
    exact (Except.ok.injEq _ _).mp hok
  have hpw := initLoop_pairwise_ne Rv w m c hRpos names 0 Rv
  rw [hos] at hpw
  have hget := List.pairwise_iff_get.mp hpw
  rcases Nat.lt_or_ge i j with hlt | hge
  · exact hget ⟨i, hi⟩ ⟨j, hj⟩ hlt
  · have hlt : j < i := lt_of_le_of_ne hge (Ne.symm hij)
    exact (hget ⟨j, hj⟩ ⟨i, hi⟩ hlt).symm

/-- C9 witness: two nodes on a 2 × 4 canvas (`S = 4`, `R = 2`) land at
`(2, 2)` and `(2, 6)`, which differ. -/
theorem C9_no_initial_overlap_witness :
    (osC9.get ⟨0, by norm_num [osC9]⟩).pos ≠
      (osC9.get ⟨1, by norm_num [osC9]⟩).pos :=
  C9_no_initial_overlap 2 2 4 1 1 ["A", "B"] (by norm_num) (by norm_num)
    (by norm_num) (by norm_num) osC9
    (by norm_num [init_positions, initLoop, osC9]) 0 1
    (by norm_num [osC9]) (by norm_num [osC9]) (by norm_num)

/-- C8: determinism.  The engine (construction followed by
`move_to_equillibrium`) is a pure function of the node ordering, the
canvas dimensions, the physical constants, the iteration count and the
weight oracle: two runs with pointwise-equal oracles and identical
remaining inputs produce identical output positions.  No randomness
exists anywhere in the engine. -/
theorem C8_engine_deterministic (kfn₁ kfn₂ : Obj → Obj → Option ℚ)
    (sqrtS w h m c t : ℚ) (names : List String) (R : ℕ)
    (hk : ∀ a b, kfn₁ a b = kfn₂ a b) :
    runEngine kfn₁ sqrtS w h m c t names R =
      runEngine kfn₂ sqrtS w h m c t names R := by
  have heq : kfn₁ = kfn₂ := funext fun a => funext fun b => hk a b
  rw [heq]

/-- C8 witness: two syntactically different but pointwise-equal oracles
give identical runs on a concrete two-node engine. -/
theorem C8_engine_deterministic_witness :
    runEngine kfnC8a 2 2 2 1 1 1 ["A", "B"] 1 =
      runEngine kfnC8b 2 2 2 1 1 1 ["A", "B"] 1 :=
  C8_engine_deterministic kfnC8a kfnC8b 2 2 2 1 1 1 ["A", "B"] 1
    (fun a b => by simp [kfnC8a, kfnC8b])

/-! Name-preservation, query-characterization and oracle-congruence
lemmas for the attraction pass. -/

theorem repPair_name (v u : Obj) :
    (repPair v u).1.name = v.name ∧ (repPair v u).2.name = u.name := by
  simp [repPair]

theorem attPair_name (kfn : Obj → Obj → Option ℚ) (v u : Obj) :
    (attPair kfn v u).1.name = v.name ∧ (attPair kfn v u).2.name = u.name := by
  cases hk : kfn v u <;> simp [attPair, hk]

theorem repRow_name (v : Obj) (us : List Obj) :
    (repRow v us).1.name = v.name ∧
      (repRow v us).2.map Obj.name = us.map Obj.name := by
  induction us generalizing v with
  | nil => simp [repRow]
  | cons u us ih =>
    simp only [repRow, List.map_cons]
    exact ⟨((ih (repPair v u).1).1).trans (repPair_name v u).1,
      by rw [(ih (repPair v u).1).2, (repPair_name v u).2]⟩

theorem attRow_name (kfn : Obj → Obj → Option ℚ) (v : Obj) (us : List Obj) :
    (attRow kfn v us).1.name = v.name ∧
      (attRow kfn v us).2.map Obj.name = us.map Obj.name := by
  induction us generalizing v with
  | nil => simp [attRow]
  | cons u us ih =>
    simp only [attRow, List.map_cons]
    exact ⟨((ih (attPair kfn v u).1).1).trans (attPair_name kfn v u).1,
      by rw [(ih (attPair kfn v u).1).2, (attPair_name kfn v u).2]⟩

theorem compute_repulsive_force_name :
    ∀ os : List Obj,
      (compute_repulsive_force os).map Obj.name = os.map Obj.name
  | [] => by simp [compute_repulsive_force]
  | v :: rest => by
    simp only [compute_repulsive_force, List.map_cons]
    rw [compute_repulsive_force_name (repRow v rest).2,
      (repRow_name v rest).1, (repRow_name v rest).2]
termination_by os => os.length
decreasing_by simp [repRow_snd_length]

theorem compute_attractive_force_name (kfn : Obj → Obj → Option ℚ) :
    ∀ os : List Obj,
      (compute_attractive_force kfn os).map Obj.name = os.map Obj.name
  | [] => by simp [compute_attractive_force]
  | v :: rest => by
    simp only [compute_attractive_force, List.map_cons]
    rw [compute_attractive_force_name kfn (attRow kfn v rest).2,
      (attRow_name kfn v rest).1, (attRow_name kfn v rest).2]
termination_by os => os.length
decreasing_by simp [attRow_snd_length]

theorem clear_forces_name (os : List Obj) :
    (clear_forces os).map Obj.name = os.map Obj.name := by
  simp only [clear_forces, List.map_map]
  rfl

theorem springStep_names (kfn : Obj → Obj → Option ℚ) (t : ℚ)
    (os os2 : List Obj) (hok : springStep kfn t os = Except.ok os2) :
    os2.map Obj.name = os.map Obj.name := by
  simp only [springStep, move] at hok
  split_ifs at hok with hz
  have h2 := (Except.ok.injEq _ _).mp hok
  rw [← h2, List.map_map]
  have h3 : List.map (Obj.name ∘ moveObj t)
      (compute_attractive_force kfn (compute_repulsive_force (clear_forces os)))
      = List.map Obj.name
          (compute_attractive_force kfn
            (compute_repulsive_force (clear_forces os))) := rfl
  rw [h3, compute_attractive_force_name, compute_repulsive_force_name,
    clear_forces_name]

theorem attRowQueries_eq (kfn : Obj → Obj → Option ℚ) (v : Obj)
    (us : List Obj) :
    attRowQueries kfn v us = us.map fun u => (v.name, u.name) := by
  induction us generalizing v with
  | nil => simp [attRowQueries]
  | cons u us ih =>
    simp only [attRowQueries, List.map_cons]
    rw [ih (attPair kfn v u).1, (attPair_name kfn v u).1]

theorem attQueries_eq (kfn : Obj → Obj → Option ℚ) :
    ∀ os : List Obj, attQueries kfn os = allPairs (os.map Obj.name)
  | [] => by simp [attQueries, allPairs]
  | v :: rest => by
    simp only [attQueries, List.map_cons, allPairs]
    rw [attRowQueries_eq, attQueries_eq kfn (attRow kfn v rest).2,
      (attRow_name kfn v rest).2, List.map_map]
    rfl
termination_by os => os.length
decreasing_by simp [attRow_snd_length]

theorem allPairs_fst_mem {α : Type} :
    ∀ (l : List α) (p : α × α), p ∈ allPairs l → p.1 ∈ l
  | [], p, hp => by simp [allPairs] at hp
  | x :: xs, p, hp => by
    simp only [allPairs, List.mem_append] at hp
    rcases hp with hp | hp
    · rcases List.mem_map.mp hp with ⟨y, _, rfl⟩
      exact List.mem_cons_self _ _
    · exact List.mem_cons_of_mem x (allPairs_fst_mem xs p hp)

theorem allPairs_nodup {α : Type} :
    ∀ l : List α, l.Nodup → (allPairs l).Nodup
  | [], _ => by simp [allPairs]
  | x :: xs, hnd => by
    rcases List.nodup_cons.mp hnd with ⟨hx, hxs⟩
    simp only [allPairs]
    refine List.Nodup.append ?_ (allPairs_nodup xs hxs) ?_
    · refine List.Nodup.map ?_ hxs
      intro a b hab
      simpa using hab
    · intro p hp1 hp2
      rcases List.mem_map.mp hp1 with ⟨y, _, rfl⟩
      exact hx (allPairs_fst_mem xs _ hp2)

theorem attPair_congr (K₁ K₂ : String → String → Option ℚ) (v u : Obj)
    (h : K₁ v.name u.name = K₂ v.name u.name) :
    attPair (nameOracle K₁) v u = attPair (nameOracle K₂) v u := by
  simp only [attPair, nameOracle, h]

theorem attRow_congr (K₁ K₂ : String → String → Option ℚ) (v : Obj)
    (us : List Obj)
    (h : ∀ u ∈ us, K₁ v.name u.name = K₂ v.name u.name) :
    attRow (nameOracle K₁) v us = attRow (nameOracle K₂) v us := by
  induction us generalizing v with
  | nil => simp [attRow]
  | cons u us ih =>
    have hpair := attPair_congr K₁ K₂ v u (h u (List.mem_cons_self u us))
    have hrec := ih (attPair (nameOracle K₂) v u).1 (fun w hw => by
      rw [(attPair_name (nameOracle K₂) v u).1]
      exact h w (List.mem_cons_of_mem u hw))
    simp only [attRow, hpair, hrec]

theorem compute_attractive_force_congr (K₁ K₂ : String → String → Option ℚ) :
    ∀ os : List Obj,
      (∀ pq ∈ allPairs (os.map Obj.name), K₁ pq.1 pq.2 = K₂ pq.1 pq.2) →
      compute_attractive_force (nameOracle K₁) os
        = compute_attractive_force (nameOracle K₂) os
  | [], _ => by simp [compute_attractive_force]
  | v :: rest, h => by
    have hrow := attRow_congr K₁ K₂ v rest (fun u hu => by
      apply h (v.name, u.name)
      simp only [List.map_cons, allPairs, List.mem_append]
      exact Or.inl (List.mem_map_of_mem _ (List.mem_map_of_mem Obj.name hu)))
    have hrec := compute_attractive_force_congr K₁ K₂
      (attRow (nameOracle K₂) v rest).2 (fun pq hpq => by
        apply h pq
        rw [(attRow_name (nameOracle K₂) v rest).2] at hpq
        simp only [List.map_cons, allPairs, List.mem_append]
        exact Or.inr hpq)
    simp only [compute_attractive_force]
    rw [hrow, hrec]
termination_by os => os.length
decreasing_by simp [attRow_snd_length]

theorem springStep_congr (K₁ K₂ : String → String → Option ℚ) (t : ℚ)
    (os : List Obj)
    (h : ∀ pq ∈ allPairs (os.map Obj.name), K₁ pq.1 pq.2 = K₂ pq.1 pq.2) :
    springStep (nameOracle K₁) t os = springStep (nameOracle K₂) t os := by
  have hatt := compute_attractive_force_congr K₁ K₂
    (compute_repulsive_force (clear_forces os)) (fun pq hpq => by
      apply h pq
      rwa [compute_repulsive_force_name, clear_forces_name] at hpq)
  simp only [springStep]
  rw [hatt]

theorem springIter_congr (K₁ K₂ : String → String → Option ℚ) (t : ℚ) :
    ∀ (n : ℕ) (os : List Obj),
      (∀ pq ∈ allPairs (os.map Obj.name), K₁ pq.1 pq.2 = K₂ pq.1 pq.2) →
      springIter (nameOracle K₁) t n os = springIter (nameOracle K₂) t n os := by
  intro n
  induction n with
  | zero => intro os h; rfl
  | succ n ih =>
    intro os h
    simp only [springIter]
    rw [springStep_congr K₁ K₂ t os h]
    cases hstep : springStep (nameOracle K₂) t os with
    | error e => simp [Except.bind]
    | ok os2 =>
      simp only [Except.bind]
      apply ih os2
      intro pq hpq
      apply h pq
      rwa [springStep_names _ t os os2 hstep] at hpq

/-- C10: oracle query protocol of the attraction pass.  (1) The argument
pairs passed to the oracle during one pass are exactly the
`(earlier, later)` pairs of the node list, in loop order — every query
puts the lower-index node first; (2) with distinct node names each pair
is queried exactly once (the query list has no duplicates); (3)
consequently, for name-driven oracles, any two oracles that agree on all
`(earlier, later)` argument orders produce identical forces and
positions over an entire `move_to_equillibrium` run — an asymmetric
oracle yields behavior determined solely by the input node ordering. -/
theorem C10_attraction_oracle_protocol (kfn : Obj → Obj → Option ℚ)
    (K₁ K₂ : String → String → Option ℚ) (w h t : ℚ) (R : ℕ)
    (os : List Obj) :
    attQueries kfn os = allPairs (os.map Obj.name)
    ∧ ((os.map Obj.name).Nodup → (attQueries kfn os).Nodup)
    ∧ ((∀ pq ∈ allPairs (os.map Obj.name), K₁ pq.1 pq.2 = K₂ pq.1 pq.2) →
        move_to_equillibrium (nameOracle K₁) w h t R os
          = move_to_equillibrium (nameOracle K₂) w h t R os) := by
  refine ⟨attQueries_eq kfn os, ?_, ?_⟩
  · intro hnd
    rw [attQueries_eq]
    exact allPairs_nodup _ hnd
  · intro hagree
    simp only [move_to_equillibrium]
    rw [springIter_congr K₁ K₂ t R os hagree]

/-- C10 witness: on the two-node list `osC2` (names "A", "B"), the oracle
is queried exactly at `("A", "B")`; the oracles `K10a` and `K10b` differ
only at the reversed order `("B", "A")` and give identical runs. -/
theorem C10_attraction_oracle_protocol_witness :
    attQueries (nameOracle K10a) osC2 = allPairs (osC2.map Obj.name)
    ∧ (attQueries (nameOracle K10a) osC2).Nodup
    ∧ move_to_equillibrium (nameOracle K10a) 2 2 1 1 osC2
        = move_to_equillibrium (nameOracle K10b) 2 2 1 1 osC2 := by
  obtain ⟨h1, h2, h3⟩ :=
    C10_attraction_oracle_protocol (nameOracle K10a) K10a K10b 2 2 1 1 osC2
  refine ⟨h1, h2 (by simp [osC2]), h3 ?_⟩
  intro pq hpq
  have hab : pq = ("A", "B") := by
    simpa [osC2, allPairs] using hpq
  subst hab
  simp [K10a, K10b]

end Spring
